import Mathlib

/-!
# Verification of the Olympic-dashboard normalization/aggregation pipeline

Shallow embedding of the data pipeline shared by the three Vue components
(`SankeyDiagram.vue`, `MedalHeatmap.vue`, `AthletesMap.vue`):
name normalization, country aliasing, the hash join of medallists with
medals, the d3 `rollups`-style grouping, the stable descending top-K
selection, and the conjunctive top-K filters.

String primitives (`trim`, split on whitespace, `toLowerCase`) are embedded
as structurally recursive functions on the underlying character list so that
all definitions evaluate inside the kernel; they have exactly the semantics
of the JS methods used by the source.
-/

namespace Olympics

/-- JS `String.prototype.trim`: drop whitespace from both ends. -/
def trimChars (cs : List Char) : List Char :=
  ((cs.dropWhile Char.isWhitespace).reverse.dropWhile Char.isWhitespace).reverse

/-- Split a character list at every character satisfying `p` (separators are
dropped; empty pieces are kept, to be filtered by the caller). Splitting on
each whitespace character and dropping empty pieces yields exactly the
pieces of JS `split(/\s+/)` on a trimmed string. -/
def splitChars (p : Char → Bool) : List Char → List (List Char)
  | [] => [[]]
  | c :: cs =>
    if p c then [] :: splitChars p cs
    else
      match splitChars p cs with
      | t :: ts => (c :: t) :: ts
      | [] => [[c]]

/-- JS `String.prototype.toLowerCase` (on the character range the data
uses). -/
def strLower (s : String) : String := String.mk (s.data.map Char.toLower)

/-- Tokens of `name.trim().split(/\s+/)` (SankeyDiagram.vue line 46 and
MedalHeatmap.vue line 41). On an empty trimmed string JS yields `[""]`
while this yields `[]`; both have fewer than 2 elements, so `normalizeName`
is unaffected. -/
def nameTokens (s : String) : List String :=
  ((splitChars Char.isWhitespace (trimChars s.data)).map String.mk).filter
    (fun t => t ≠ "")

/-- `normalizeName` of SankeyDiagram.vue lines 45-52 (MedalHeatmap.vue
lines 40-47 is identical): with fewer than 2 tokens return the lowercased
original input; otherwise join the first two tokens (swapped when
`reversed`) with one space and lowercase. -/
def normalizeName (name : String) (reversed : Bool) : String :=
  match nameTokens name with
  | t0 :: t1 :: _ =>
    if reversed then strLower (t1 ++ " " ++ t0) else strLower (t0 ++ " " ++ t1)
  | _ => strLower name

/-! ## Row types

CSV rows expose each column as `string | undefined`; an absent column is
`undefined` and JS truthiness tests (`!d.name`) treat both `undefined` and
`""` as missing, so columns are embedded as `Option String` with a
blankness test covering both. Only the columns the pipeline reads are
modelled. -/

structure MedallistRow where
  name : Option String
  country : Option String
deriving DecidableEq

structure MedalRow where
  name : Option String
  discipline : Option String
  medal_type : Option String
deriving DecidableEq

structure AthleteRow where
  country : Option String
  country_long : Option String
deriving DecidableEq

/-- JS falsiness of a `string | undefined` column: `undefined` or `""`. -/
def isBlank : Option String → Bool
  | none => true
  | some s => s = ""

/-! ## The name → country index (SankeyDiagram.vue lines 64-70,
MedalHeatmap.vue lines 58-66)

`nameToCountry` is a JS `Map` used only through `get`, so it is embedded as
an association list to which each indexed row *prepends* its entry:
`List.lookup` returns the most recently prepended binding, which is exactly
`Map.set`'s overwrite (last-write-wins) as seen by `Map.get`. -/

/-- The entry a medallist row contributes to the index: skipped when name
or country is missing/empty, else key `normalizeName(name, true)` mapped to
the row's country. -/
def indexEntry (d : MedallistRow) : Option (String × String) :=
  match d.name, d.country with
  | some n, some c =>
    if n = "" ∨ c = "" then none else some (normalizeName n true, c)
  | _, _ => none

/-- One `forEach` step of building `nameToCountry`. -/
def indexStep (m : List (String × String)) (d : MedallistRow) :
    List (String × String) :=
  match indexEntry d with
  | some e => e :: m
  | none => m

/-- The `nameToCountry` map after `medallists.forEach(...)`. -/
def nameIndex (medallists : List MedallistRow) : List (String × String) :=
  medallists.foldl indexStep []

/-- Specification-side description of last-write-wins: the country attached
to key `k` is the one of the *last* medallist row that is indexed (name and
country present and non-empty) and whose normalized name is `k`; later rows
take precedence over earlier ones. -/
def lastEntry : List MedallistRow → String → Option String
  | [], _ => none
  | d :: ms, k =>
    match lastEntry ms k with
    | some c => some c
    | none =>
      match indexEntry d with
      | some e => if e.1 = k then some e.2 else none
      | none => none

/-! ## The joins -/

/-- Joined record of the Sankey pipeline (country, discipline, medal). -/
structure JoinedS where
  country : String
  discipline : String
  medal : String
deriving DecidableEq

/-- Joined record of the heatmap pipeline (country, discipline). -/
structure JoinedHM where
  country : String
  discipline : String
deriving DecidableEq

/-- One step of the Sankey join (SankeyDiagram.vue lines 73-85): drop the
medal row when name, discipline or medal_type is missing/empty; look the
normalized (unreversed) name up in the index; drop on a miss; otherwise
emit the looked-up country with the row's own discipline and medal type. -/
def sankeyJoinRow (idx : List (String × String)) (d : MedalRow) :
    Option JoinedS :=
  match d.name, d.discipline, d.medal_type with
  | some n, some disc, some mt =>
    if n = "" ∨ disc = "" ∨ mt = "" then none
    else
      match idx.lookup (normalizeName n false) with
      | some c => if c = "" then none else some ⟨c, disc, mt⟩
      | none => none
  | _, _, _ => none

/-- The Sankey `joined` array (SankeyDiagram.vue lines 73-90):
`map`-to-null-then-`filter` is `filterMap`. -/
def sankeyJoin (medallists : List MedallistRow) (medals : List MedalRow) :
    List JoinedS :=
  medals.filterMap (sankeyJoinRow (nameIndex medallists))

/-- One step of the heatmap join (MedalHeatmap.vue lines 70-83): as the
Sankey join but only name and discipline are required. -/
def heatJoinRow (idx : List (String × String)) (d : MedalRow) :
    Option JoinedHM :=
  match d.name, d.discipline with
  | some n, some disc =>
    if n = "" ∨ disc = "" then none
    else
      match idx.lookup (normalizeName n false) with
      | some c => if c = "" then none else some ⟨c, disc⟩
      | none => none
  | _, _ => none

/-- The heatmap `joined` array (MedalHeatmap.vue lines 70-84). -/
def heatJoin (medallists : List MedallistRow) (medals : List MedalRow) :
    List JoinedHM :=
  medals.filterMap (heatJoinRow (nameIndex medallists))

/-! ## d3.rollups

`d3.rollups(data, reduce, key)` returns `[key, reduce(group)]` pairs whose
order is the order of first occurrence of each key, each group holding its
members in original data order; `d3.rollups(data, reduce, key1, key2)`
nests the same construction. -/

/-- Distinct elements in order of first occurrence (the iteration order of
d3's InternMap). -/
def firstOccur : List String → List String
  | [] => []
  | k :: ks => k :: (firstOccur ks).filter (fun x => x ≠ k)

/-- `d3.rollups(l, red, f)` with an arbitrary numeric reducer `red`. -/
def rollupWith (f : α → String) (red : List α → Nat) (l : List α) :
    List (String × Nat) :=
  (firstOccur (l.map f)).map (fun k => (k, red (l.filter (fun x => f x = k))))

/-- `d3.rollups(l, v => v.length, f)`. -/
def rollup1 (f : α → String) (l : List α) : List (String × Nat) :=
  rollupWith f List.length l

/-- `d3.rollups(l, v => v.length, f, g)`: nested two-level tally. -/
def rollup2 (f g : α → String) (l : List α) :
    List (String × List (String × Nat)) :=
  (firstOccur (l.map f)).map
    (fun k => (k, rollup1 g (l.filter (fun x => f x = k))))

/-! ## Top-K selection

The source sorts the rollup result with `.sort((a, b) => b[1] - a[1])`:
a stable sort (ES2019) placing higher counts first and keeping the original
relative order of equal counts. The unique stable descending order is
computed here by Mathlib's stable `insertionSort` with relation
`b.2 ≤ a.2`; `.slice(0, k).map(d => d[0])` is `take k` then `map fst`. -/

/-- Stable descending-by-count sort, the semantics of
`.sort((a, b) => b[1] - a[1])`. -/
def sortDesc (l : List (String × Nat)) : List (String × Nat) :=
  l.insertionSort (fun a b => b.2 ≤ a.2)

/-- `entries.sort((a,b) => b[1]-a[1]).slice(0, k).map(d => d[0])`
(SankeyDiagram.vue lines 93-105, MedalHeatmap.vue lines 103-115). -/
def topK (entries : List (String × Nat)) (k : Nat) : List String :=
  ((sortDesc entries).take k).map Prod.fst

/-! ## The Sankey pipeline (SankeyDiagram.vue lines 93-119) -/

def sankeyTopCountries (medallists : List MedallistRow)
    (medals : List MedalRow) : List String :=
  topK (rollup1 (fun d => d.country) (sankeyJoin medallists medals)) 8

def sankeyTopDisciplines (medallists : List MedallistRow)
    (medals : List MedalRow) : List String :=
  topK (rollup1 (fun d => d.discipline) (sankeyJoin medallists medals)) 8

/-- The Sankey `filtered` array (SankeyDiagram.vue lines 107-111):
conjunctive filter on both top-K memberships. -/
def sankeyFiltered (medallists : List MedallistRow)
    (medals : List MedalRow) : List JoinedS :=
  (sankeyJoin medallists medals).filter
    (fun d =>
      (sankeyTopCountries medallists medals).contains d.country &&
      (sankeyTopDisciplines medallists medals).contains d.discipline)

/-! ## The heatmap pipeline (MedalHeatmap.vue lines 88-121) -/

structure HeatmapCell where
  country : String
  discipline : String
  value : Nat
deriving DecidableEq

/-- Flatten a two-level rollup of joined records into the `cells` list
(MedalHeatmap.vue lines 88-100). -/
def cellsOf (recs : List JoinedHM) : List HeatmapCell :=
  (rollup2 (fun d => d.country) (fun d => d.discipline) recs).flatMap
    (fun p => p.2.map (fun q => ⟨p.1, q.1, q.2⟩))

def heatCells (medallists : List MedallistRow) (medals : List MedalRow) :
    List HeatmapCell :=
  cellsOf (heatJoin medallists medals)

/-- `d3.sum(v, d => d.value)` over a cell group. -/
def sumValues (v : List HeatmapCell) : Nat := (v.map (fun d => d.value)).sum

def heatTopCountries (medallists : List MedallistRow)
    (medals : List MedalRow) : List String :=
  topK (rollupWith (fun d => d.country) sumValues
    (heatCells medallists medals)) 15

def heatTopDisciplines (medallists : List MedallistRow)
    (medals : List MedalRow) : List String :=
  topK (rollupWith (fun d => d.discipline) sumValues
    (heatCells medallists medals)) 8

/-- The heatmap's final filtered cell list (MedalHeatmap.vue
lines 117-121). -/
def heatmapData (medallists : List MedallistRow) (medals : List MedalRow) :
    List HeatmapCell :=
  (heatCells medallists medals).filter
    (fun d =>
      (heatTopCountries medallists medals).contains d.country &&
      (heatTopDisciplines medallists medals).contains d.discipline)

/-! ## Country aliasing and the choropleth pipeline (AthletesMap.vue) -/

/-- `COUNTRY_ALIASES` (AthletesMap.vue lines 16-36), as the association
list of its entry pairs; `Record` lookup is exact string match. -/
def COUNTRY_ALIASES : List (String × String) :=
  [("United States", "United States of America"),
   ("USA", "United States of America"),
   ("Great Britain", "United Kingdom"),
   ("China", "China"),
   ("People's Republic of China", "China"),
   ("Korea", "South Korea"),
   ("Republic of Korea", "South Korea"),
   ("DPR Korea", "North Korea"),
   ("Chinese Taipei", "Taiwan"),
   ("Hong Kong, China", "Hong Kong"),
   ("Russian Olympic Committee", "Russia"),
   ("Russian Federation", "Russia"),
   ("Islamic Republic of Iran", "Iran")]

/-- `normalizeCountry` (AthletesMap.vue lines 38-46):
`raw = countryLong || country` (JS `||`: an empty string falls through),
`if (!raw) return null`, then `COUNTRY_ALIASES[raw] ?? raw`. -/
def normalizeCountry (country countryLong : Option String) :
    Option String :=
  let raw : Option String :=
    match countryLong with
    | some s => if s = "" then country else some s
    | none => country
  match raw with
  | some s => if s = "" then none else some ((COUNTRY_ALIASES.lookup s).getD s)
  | none => none

/-- `counts.set(name, (counts.get(name) ?? 0) + 1)` on a JS `Map` held as
an association list in insertion order: an existing key is updated in
place, a new key is appended at the end. -/
def bump : List (String × Nat) → String → List (String × Nat)
  | [], k => [(k, 1)]
  | (k', v) :: rest, k =>
    if k' = k then (k', v + 1) :: rest else (k', v) :: bump rest k

/-- One `forEach` step of the choropleth tally: rows whose
`normalizeCountry` is null are skipped, every other row increments its
canonical country's count. -/
def athStep (m : List (String × Nat)) (d : AthleteRow) :
    List (String × Nat) :=
  match normalizeCountry d.country d.country_long with
  | some name => bump m name
  | none => m

/-- The choropleth `counts` map after `data.forEach(...)` (AthletesMap.vue
lines 66-76). -/
def athleteCounts (rows : List AthleteRow) : List (String × Nat) :=
  rows.foldl athStep []

/-- The number of athlete rows that canonicalize to country `c`. -/
def matchCount (rows : List AthleteRow) (c : String) : Nat :=
  (rows.filter
    (fun d => normalizeCountry d.country d.country_long = some c)).length

/-! ## The two orders of operation, over a fixed pair of top sets

The heatmap aggregates the full joined set into cells and then filters the
cells (MedalHeatmap.vue lines 88-100 then 117-121); the Sankey filters the
joined records and then aggregates (SankeyDiagram.vue lines 107-111 then
114-119). Parameterized over the same fixed top-country/top-discipline
lists. -/

/-- Heatmap order: filter the aggregated cells on both dimensions. -/
def filterCellsTop (tc td : List String) (cells : List HeatmapCell) :
    List HeatmapCell :=
  cells.filter (fun d => tc.contains d.country && td.contains d.discipline)

/-- Sankey order: filter the joined records on both dimensions (the
aggregation then follows, `cellsOf`). -/
def filterRecsTop (tc td : List String) (recs : List JoinedHM) :
    List JoinedHM :=
  recs.filter (fun d => tc.contains d.country && td.contains d.discipline)

example :
    heatJoin [⟨some "Jane Doe", some "X"⟩]
      [⟨some "Doe Jane", some "Fencing", none⟩,
       ⟨some "No Match", some "Judo", none⟩] =
      [⟨"X", "Fencing"⟩] := by decide

example :
    topK [("A", 5), ("B", 10), ("C", 1)] 2 = ["B", "A"] := by decide

example :
    rollup2 (fun d : JoinedHM => d.country) (fun d => d.discipline)
      [⟨"X", "A"⟩, ⟨"X", "A"⟩, ⟨"X", "B"⟩] = [("X", [("A", 2), ("B", 1)])] := by
  decide

example : normalizeCountry none none = none := by decide
example :
    normalizeCountry (some "USA") none = some "United States of America" := by
  decide
example : normalizeCountry (some "Wakanda") none = some "Wakanda" := by decide
example : normalizeCountry (some "usa") none = some "usa" := by decide
example : normalizeCountry (some "USA") (some "") =
    some "United States of America" := by decide
example : normalizeCountry (some "") (some "") = none := by decide

/-! ## Theorems -/

/-- `filterMap` decomposes into keeping the rows the step accepts and
emitting one value for each kept row. -/
theorem filterMap_eq_map_filter (f : α → Option β) (dflt : β)
    (l : List α) :
    l.filterMap f =
      (l.filter (fun x => (f x).isSome)).map (fun x => (f x).getD dflt) := by
  induction l with
  | nil => rfl
  | cons x xs ih =>
    cases hx : f x <;>
      simp [List.filterMap_cons, List.filter_cons, hx, ih]

/-- Looking a key up in the fold-built index is looking for the last
indexed row with that key, whatever index was already accumulated. -/
theorem lookup_foldl_index (ms : List MedallistRow) :
    ∀ (m : List (String × String)) (k : String),
      (ms.foldl indexStep m).lookup k =
        match lastEntry ms k with
        | some c => some c
        | none => m.lookup k := by
  induction ms with
  | nil => intro m k; rfl
  | cons d ms ih =>
    intro m k
    rw [List.foldl_cons, ih]
    cases hms : lastEntry ms k with
    | some c => simp [lastEntry, hms]
    | none =>
      simp only [lastEntry, hms]
      cases hd : indexEntry d with
      | none => simp [indexStep, hd]
      | some e =>
        by_cases he : e.1 = k
        · simp [indexStep, hd, he, List.lookup, beq_iff_eq]
        · have : ¬(k == e.1) = true := by
            simp [beq_iff_eq]
            exact fun h => he h.symm
          simp [indexStep, hd, he, List.lookup, this]

/-- C2: the index skips medallist rows missing name or country and is
last-write-wins on the normalized key; the join discards every medal row
whose key misses the index and emits exactly one record, combining the
indexed country with the row's own fields, for every row whose key hits;
the concrete inner-join example yields exactly one record. -/
theorem join_spec :
    (∀ ms k, (nameIndex ms).lookup k = lastEntry ms k)
    ∧ (∀ ms md, heatJoin ms md =
        (md.filter (fun d => (heatJoinRow (nameIndex ms) d).isSome)).map
          (fun d => (heatJoinRow (nameIndex ms) d).getD ⟨"", ""⟩))
    ∧ (∀ ms md, sankeyJoin ms md =
        (md.filter (fun d => (sankeyJoinRow (nameIndex ms) d).isSome)).map
          (fun d => (sankeyJoinRow (nameIndex ms) d).getD ⟨"", "", ""⟩))
    ∧ heatJoin [⟨some "Jane Doe", some "X"⟩]
        [⟨some "Doe Jane", some "Fencing", none⟩,
         ⟨some "No Match", some "Judo", none⟩] = [⟨"X", "Fencing"⟩] := by
  refine ⟨?_, ?_, ?_, by decide⟩
  · intro ms k
    rw [nameIndex, lookup_foldl_index]
    cases lastEntry ms k <;> rfl
  · intro ms md
    exact filterMap_eq_map_filter _ _ md
  · intro ms md
    exact filterMap_eq_map_filter _ _ md

/-- C3: `normalizeName` trims and splits on whitespace runs; with fewer
than two tokens it returns the lowercased input (so a single token or the
empty string fall through unchanged apart from case); otherwise it returns
exactly the first two tokens lowercased and space-joined, swapped when
`reversed` — tokens beyond the second do not appear in the formula, so they
are ignored. -/
theorem normalizeName_spec :
    (∀ name rev, (nameTokens name).length < 2 →
       normalizeName name rev = strLower name)
    ∧ (∀ name rev t0 t1 rest, nameTokens name = t0 :: t1 :: rest →
       normalizeName name rev =
         strLower (if rev then t1 ++ " " ++ t0 else t0 ++ " " ++ t1))
    ∧ normalizeName "Doe Jane" true = "jane doe"
    ∧ normalizeName "Jane Doe" false = "jane doe"
    ∧ normalizeName "Madonna" false = "madonna"
    ∧ (∀ rev, normalizeName "" rev = "") := by
  refine ⟨?_, ?_, by decide, by decide, by decide, ?_⟩
  · intro name rev h
    unfold normalizeName
    cases hn : nameTokens name with
    | nil => rfl
    | cons t0 ts =>
      cases ts with
      | nil => rfl
      | cons t1 rest =>
        rw [hn] at h
        simp at h
        omega
  · intro name rev t0 t1 rest h
    unfold normalizeName
    rw [h]
    cases rev <;> rfl
  · intro rev
    cases rev <;> decide

/-- C5: `normalizeCountry` prefers the long label when it is given
(non-empty), returns null when neither argument is present, maps an
exact-match key of `COUNTRY_ALIASES` to its canonical name and passes any
other label through unchanged; lookups are exact (no case folding). -/
theorem normalizeCountry_spec :
    (∀ p l, l ≠ "" →
       normalizeCountry p (some l) = normalizeCountry none (some l))
    ∧ normalizeCountry none none = none
    ∧ (∀ s canon, s ≠ "" → COUNTRY_ALIASES.lookup s = some canon →
       normalizeCountry (some s) none = some canon
       ∧ normalizeCountry none (some s) = some canon)
    ∧ (∀ s, s ≠ "" → COUNTRY_ALIASES.lookup s = none →
       normalizeCountry (some s) none = some s
       ∧ normalizeCountry none (some s) = some s)
    ∧ normalizeCountry (some "USA") none = some "United States of America"
    ∧ normalizeCountry (some "Wakanda") none = some "Wakanda"
    ∧ normalizeCountry (some "usa") none = some "usa" := by
  refine ⟨?_, by decide, ?_, ?_, by decide, by decide, by decide⟩
  · intro p l hl
    simp [normalizeCountry, hl]
  · intro s canon hs hlook
    constructor <;> simp [normalizeCountry, hs, hlook]
  · intro s hs hlook
    constructor <;> simp [normalizeCountry, hs, hlook]

/-- C9: an empty-string `countryLong` is falsy for JS `||`, so it is
treated as absent: the result is computed from the primary label, and two
empty strings give null rather than the empty string. -/
theorem normalizeCountry_blank_long (p : String) (hp : p ≠ "") :
    normalizeCountry (some p) (some "") = normalizeCountry (some p) none
    ∧ normalizeCountry (some p) (some "") =
        some ((COUNTRY_ALIASES.lookup p).getD p)
    ∧ normalizeCountry (some "") (some "") = none := by
  refine ⟨?_, ?_, by decide⟩ <;> simp [normalizeCountry, hp]

instance : IsTotal (String × Nat) (fun a b => b.2 ≤ a.2) :=
  ⟨fun a b => Nat.le_total b.2 a.2⟩

instance : IsTrans (String × Nat) (fun a b => b.2 ≤ a.2) :=
  ⟨fun _ _ _ hab hbc => Nat.le_trans hbc hab⟩

theorem sortDesc_cons (e : String × Nat) (l : List (String × Nat)) :
    sortDesc (e :: l) =
      (sortDesc l).orderedInsert (fun a b => b.2 ≤ a.2) e := rfl

/-- Inserting an element into a list leaves each count-class of the filter
unchanged relative to consing it in front: the insertion point lies past
strictly greater counts only. -/
theorem filter_orderedInsert (c : Nat) (e : String × Nat) :
    ∀ l : List (String × Nat),
      (l.orderedInsert (fun a b => b.2 ≤ a.2) e).filter
          (fun x => x.2 = c) =
        ((e :: l).filter (fun x => x.2 = c)) := by
  intro l
  induction l with
  | nil => rfl
  | cons b l ih =>
    rw [List.orderedInsert]
    by_cases h : b.2 ≤ e.2
    · rw [if_pos h]
    · rw [if_neg h]
      by_cases hb : b.2 = c <;> by_cases he : e.2 = c
      · exact absurd (le_of_eq (hb.trans he.symm)) h
      all_goals simp [List.filter_cons, hb, he, ih]

/-- Stability of the descending sort: within each count the original
relative order is preserved. -/
theorem filter_sortDesc (c : Nat) (l : List (String × Nat)) :
    (sortDesc l).filter (fun x => x.2 = c) =
      l.filter (fun x => x.2 = c) := by
  induction l with
  | nil => rfl
  | cons e l ih =>
    rw [sortDesc_cons, filter_orderedInsert]
    by_cases he : e.2 = c <;> simp [List.filter_cons, he, ih]

/-- C4: the top-K selector stably sorts the (key, count) entries by
descending count — the output is sorted, is a permutation of the input,
and preserves the input's relative order within every count class — and
returns the first `k` keys (all the keys when the input is shorter than
`k`); the selection is a pure function of its input. -/
theorem topK_spec (entries : List (String × Nat)) (k : Nat)
    (_hk : 1 ≤ k) :
    topK entries k = ((sortDesc entries).take k).map Prod.fst
    ∧ List.Sorted (fun a b => b.2 ≤ a.2) (sortDesc entries)
    ∧ (∀ c : Nat, (sortDesc entries).filter (fun x => x.2 = c) =
        entries.filter (fun x => x.2 = c))
    ∧ List.Perm (sortDesc entries) entries
    ∧ (entries.length ≤ k →
        topK entries k = (sortDesc entries).map Prod.fst)
    ∧ topK [("A", 5), ("B", 10), ("C", 1)] 2 = ["B", "A"] := by
  refine ⟨rfl, List.sorted_insertionSort _ entries,
    fun c => filter_sortDesc c entries,
    List.perm_insertionSort _ entries, ?_, by decide⟩
  intro hlen
  have hlen' : (sortDesc entries).length ≤ k := by
    rw [sortDesc, (List.perm_insertionSort _ entries).length_eq]
    exact hlen
  rw [topK, List.take_of_length_le hlen']

theorem topK_spec_witness :
    topK [("A", 5), ("B", 10), ("C", 1)] 2 = ["B", "A"] :=
  (topK_spec [("A", 5), ("B", 10), ("C", 1)] 2 (by decide)).2.2.2.2.2

theorem mem_firstOccur {k : String} :
    ∀ {l : List String}, k ∈ firstOccur l ↔ k ∈ l := by
  intro l
  induction l with
  | nil => simp [firstOccur]
  | cons a l ih =>
    simp only [firstOccur, List.mem_cons, List.mem_filter]
    by_cases hka : k = a
    · simp [hka]
    · simp [hka, ih]

/-- Looking a key up among pairs built uniformly from a key list. -/
theorem lookup_map_key {β : Type} (h : String → β) (c : String) :
    ∀ ks : List String,
      (ks.map (fun k => (k, h k))).lookup c =
        if c ∈ ks then some (h c) else none := by
  intro ks
  induction ks with
  | nil => simp
  | cons a ks ih =>
    by_cases hca : c = a
    · subst hca
      simp [List.lookup]
    · have : (c == a) = false := by simp [hca]
      simp [List.lookup, this, hca, ih]

/-- The count `rollup1` attaches to key `d` (0 when the key is absent) is
the number of elements with that key. -/
theorem lookup_rollup1 {α : Type} (g : α → String) (l : List α)
    (d : String) :
    ((rollup1 g l).lookup d).getD 0 =
      (l.filter (fun x => g x = d)).length := by
  rw [rollup1, rollupWith, lookup_map_key]
  by_cases hd : d ∈ firstOccur (l.map g)
  · simp [hd]
  · rw [if_neg hd]
    rw [mem_firstOccur] at hd
    have : l.filter (fun x => g x = d) = [] := by
      rw [List.filter_eq_nil_iff]
      intro a ha
      simp only [decide_eq_true_eq]
      intro hga
      exact hd (hga ▸ List.mem_map_of_mem _ ha)
    simp [this]

/-- C6: two-dimension aggregation counts, per (dim1, dim2) pair, exactly
the records carrying that pair (0 for an absent pair), lists the groups in
first-occurrence order of the dim1 key, and on the three-record example
yields `X → [("A", 2), ("B", 1)]`. -/
theorem aggregate_spec :
    (∀ (recs : List JoinedHM) (c d : String),
       ((((rollup2 (fun r => r.country) (fun r => r.discipline)
             recs).lookup c).getD []).lookup d).getD 0 =
         ((recs.filter (fun r => r.country = c)).filter
             (fun r => r.discipline = d)).length)
    ∧ (∀ recs : List JoinedHM,
       (rollup2 (fun r => r.country) (fun r => r.discipline)
           recs).map Prod.fst =
         firstOccur (recs.map (fun r => r.country)))
    ∧ rollup2 (fun r : JoinedHM => r.country) (fun r => r.discipline)
        [⟨"X", "A"⟩, ⟨"X", "A"⟩, ⟨"X", "B"⟩] =
      [("X", [("A", 2), ("B", 1)])] := by
  refine ⟨?_, ?_, by decide⟩
  · intro recs c d
    rw [rollup2, lookup_map_key]
    by_cases hc : c ∈ firstOccur (recs.map (fun r => r.country))
    · rw [if_pos hc]
      simp only [Option.getD_some]
      exact lookup_rollup1 _ _ d
    · rw [if_neg hc]
      rw [mem_firstOccur] at hc
      have : recs.filter (fun r => r.country = c) = [] := by
        rw [List.filter_eq_nil_iff]
        intro a ha
        simp only [decide_eq_true_eq]
        intro hga
        exact hc (hga ▸ List.mem_map_of_mem _ ha)
      simp [this]
  · intro recs
    rw [rollup2]
    simp [Function.comp_def]

/-- C1: a joined record survives the Sankey's `filtered` (and a cell the
heatmap's filtered list) iff it was in the joined (resp. cell) set AND its
country is among the top-K countries AND its discipline is among the top-K
disciplines: the filter is conjunctive, membership in one top set alone
does not retain a record. -/
theorem conjunctive_filter_spec :
    (∀ ms md (r : JoinedS),
       r ∈ sankeyFiltered ms md ↔
         r ∈ sankeyJoin ms md ∧ r.country ∈ sankeyTopCountries ms md ∧
           r.discipline ∈ sankeyTopDisciplines ms md)
    ∧ (∀ ms md (cell : HeatmapCell),
       cell ∈ heatmapData ms md ↔
         cell ∈ heatCells ms md ∧ cell.country ∈ heatTopCountries ms md ∧
           cell.discipline ∈ heatTopDisciplines ms md) := by
  constructor <;> intro ms md x <;>
    simp [sankeyFiltered, heatmapData, List.mem_filter, and_assoc]

/-- C7: the normalize → join → aggregate → topK chain is embedded by total
functions (no stage can throw), and every stage maps empty input to an
empty output: the empty name yields the empty key, the empty primary or
secondary table yields an empty join, aggregation and top-K of nothing are
empty, and both final filtered sets are empty. -/
theorem empty_input_safety :
    (∀ rev, normalizeName "" rev = "")
    ∧ nameIndex [] = []
    ∧ (∀ md, sankeyJoin [] md = [])
    ∧ (∀ md, heatJoin [] md = [])
    ∧ (∀ ms, sankeyJoin ms [] = [])
    ∧ (∀ ms, heatJoin ms [] = [])
    ∧ (∀ f : JoinedS → String, rollup1 f [] = [])
    ∧ (∀ f g : JoinedHM → String, rollup2 f g [] = [])
    ∧ cellsOf [] = []
    ∧ (∀ k, topK [] k = [])
    ∧ athleteCounts [] = []
    ∧ sankeyFiltered [] [] = []
    ∧ heatmapData [] [] = [] := by
  refine ⟨fun rev => by cases rev <;> decide, rfl, ?_, ?_, fun ms => rfl,
    fun ms => rfl, fun f => rfl, fun f g => rfl, rfl,
    fun k => by simp [topK, sortDesc], rfl, rfl, rfl⟩
  · intro md
    rw [sankeyJoin, List.filterMap_eq_nil_iff]
    intro d _
    rcases d with ⟨n, disc, mt⟩
    rcases n with _ | n <;> rcases disc with _ | disc <;>
      rcases mt with _ | mt <;>
      simp [sankeyJoinRow, nameIndex]
  · intro md
    rw [heatJoin, List.filterMap_eq_nil_iff]
    intro d _
    rcases d with ⟨n, disc, mt⟩
    rcases n with _ | n <;> rcases disc with _ | disc <;>
      simp [heatJoinRow, nameIndex]

/-- A `bump` increments the tallied key's value (counting a missing key as
0) and leaves every other key's binding unchanged. -/
theorem lookup_bump (k c : String) :
    ∀ m : List (String × Nat),
      (bump m k).lookup c =
        if c = k then some (((m.lookup c).getD 0) + 1) else m.lookup c := by
  intro m
  induction m with
  | nil =>
    by_cases h : c = k
    · subst h; simp [bump, List.lookup]
    · have hbeq : (c == k) = false := by simp [h]
      simp [bump, List.lookup, hbeq, h]
  | cons e m ih =>
    obtain ⟨a, v⟩ := e
    by_cases h1 : a = k
    · rw [bump, if_pos h1]
      by_cases h2 : c = a
      · have hck : c = k := h2.trans h1
        have hbeq : (c == a) = true := by simp [h2]
        have hbeq2 : (k == a) = true := by simp [h1.symm]
        simp [List.lookup, hbeq, hbeq2, hck]
      · have hbeq : (c == a) = false := by simp [h2]
        have hck : ¬c = k := fun h => h2 (h.trans h1.symm)
        simp [List.lookup, hbeq, hck]
    · rw [bump, if_neg h1]
      by_cases h2 : c = a
      · have hck : ¬c = k := fun h => h1 (h2.symm.trans h)
        have hbeq : (c == a) = true := by simp [h2]
        simp [List.lookup, hbeq, hck]
      · have hbeq : (c == a) = false := by simp [h2]
        simp [List.lookup, hbeq, ih]

/-- Folding the athlete rows over any starting map adds, for every key,
the number of rows canonicalizing to it. -/
theorem lookup_foldl_ath (rows : List AthleteRow) :
    ∀ (m : List (String × Nat)) (c : String),
      ((rows.foldl athStep m).lookup c) =
        if matchCount rows c = 0 then m.lookup c
        else some ((m.lookup c).getD 0 + matchCount rows c) := by
  induction rows with
  | nil => intro m c; simp [matchCount]
  | cons d rows ih =>
    intro m c
    rw [List.foldl_cons, ih]
    cases hnc : normalizeCountry d.country d.country_long with
    | none =>
      have hmc : matchCount (d :: rows) c = matchCount rows c := by
        simp [matchCount, List.filter_cons, hnc]
      simp [athStep, hnc, hmc]
    | some k =>
      by_cases hk : k = c
      · have hnc' : normalizeCountry d.country d.country_long = some c :=
          hk ▸ hnc
        have hmc : matchCount (d :: rows) c = matchCount rows c + 1 := by
          simp [matchCount, List.filter_cons, hnc']
        rw [hmc]
        simp only [athStep, hnc, hk]
        rw [lookup_bump c c m]
        by_cases h0 : matchCount rows c = 0
        · simp [h0]
        · simp [h0]
          omega
      · have hmc : matchCount (d :: rows) c = matchCount rows c := by
          simp [matchCount, List.filter_cons, hnc, hk]
        rw [hmc]
        simp only [athStep, hnc]
        rw [lookup_bump k c m]
        have hck : ¬c = k := fun h => hk h.symm
        simp [hck]

/-- C8: the choropleth mapping binds country `c` to `n` iff exactly
`n ≥ 1` athlete rows canonicalize to `c` (null canonicalizations are
skipped), and — with no top-K narrowing anywhere in this pipeline — a
country appears in the mapping iff at least one row canonicalizes to it. -/
theorem choropleth_counts_spec (rows : List AthleteRow) (c : String)
    (n : Nat) :
    ((athleteCounts rows).lookup c = some n ↔
      (n = matchCount rows c ∧ 1 ≤ n))
    ∧ ((∃ m, (athleteCounts rows).lookup c = some m) ↔
      1 ≤ matchCount rows c) := by
  have key : (athleteCounts rows).lookup c =
      if matchCount rows c = 0 then none else some (matchCount rows c) := by
    rw [athleteCounts, lookup_foldl_ath]
    by_cases h0 : matchCount rows c = 0 <;> simp [h0]
  rw [key]
  by_cases h0 : matchCount rows c = 0
  · simp [h0]
  · simp [h0]
    constructor
    · constructor
      · intro h; exact ⟨h.symm, by omega⟩
      · intro h; exact h.1.symm
    · omega

theorem normalizeCountry_blank_long_witness :
    normalizeCountry (some "USA") (some "") =
        normalizeCountry (some "USA") none
    ∧ normalizeCountry (some "USA") (some "") =
        some "United States of America" :=
  ⟨(normalizeCountry_blank_long "USA" (by decide)).1,
   (normalizeCountry_blank_long "USA" (by decide)).2.1⟩

/-- Membership of a cell in the flattened two-level rollup: the (country,
discipline) pair occurs in the records, and the value is the number of its
occurrences. -/
theorem mem_cellsOf {recs : List JoinedHM} {c d : String} {n : Nat} :
    (⟨c, d, n⟩ : HeatmapCell) ∈ cellsOf recs ↔
      ((∃ r ∈ recs, r.country = c ∧ r.discipline = d) ∧
       n = ((recs.filter (fun r => r.country = c)).filter
              (fun r => r.discipline = d)).length) := by
  constructor
  · intro hm
    obtain ⟨p, hp, hcell⟩ := List.mem_flatMap.mp hm
    rw [rollup2] at hp
    obtain ⟨k, hk, hpk⟩ := List.mem_map.mp hp
    subst hpk
    obtain ⟨q, hq, hqc⟩ := List.mem_map.mp hcell
    rw [rollup1, rollupWith] at hq
    obtain ⟨d', hd', hqd⟩ := List.mem_map.mp hq
    subst hqd
    injection hqc with hkc hdd hn
    subst hkc
    subst hdd
    rw [mem_firstOccur] at hd'
    obtain ⟨r, hr, hrd⟩ := List.mem_map.mp hd'
    obtain ⟨hrrecs, hrc⟩ := List.mem_filter.mp hr
    refine ⟨⟨r, hrrecs, ?_, hrd⟩, hn.symm⟩
    simpa using hrc
  · intro hm
    obtain ⟨⟨r, hrrecs, hrc, hrd⟩, hn⟩ := hm
    rw [cellsOf]
    refine List.mem_flatMap.mpr
      ⟨(c, rollup1 (fun x => x.discipline)
          (recs.filter (fun x => x.country = c))), ?_, ?_⟩
    · rw [rollup2]
      refine List.mem_map.mpr ⟨c, ?_, rfl⟩
      rw [mem_firstOccur]
      exact hrc ▸ List.mem_map_of_mem _ hrrecs
    · refine List.mem_map.mpr
        ⟨(d, ((recs.filter (fun x => x.country = c)).filter
            (fun x => x.discipline = d)).length), ?_, ?_⟩
      · rw [rollup1, rollupWith]
        refine List.mem_map.mpr ⟨d, ?_, rfl⟩
        rw [mem_firstOccur]
        refine List.mem_map.mpr ⟨r, ?_, hrd⟩
        exact List.mem_filter.mpr ⟨hrrecs, by simp [hrc]⟩
      · simp [hn]

/-- When both pair components lie in the fixed top sets, restricting the
records to top rows first does not change the pair's occurrence list. -/
theorem pairFilter_filterRecsTop {tc td : List String} {c d : String}
    (hc : c ∈ tc) (hd : d ∈ td) (recs : List JoinedHM) :
    ((filterRecsTop tc td recs).filter (fun r => r.country = c)).filter
        (fun r => r.discipline = d) =
      (recs.filter (fun r => r.country = c)).filter
        (fun r => r.discipline = d) := by
  rw [filterRecsTop, List.filter_filter, List.filter_filter,
    List.filter_filter]
  refine List.filter_congr ?_
  intro x _
  by_cases h1 : x.country = c <;> by_cases h2 : x.discipline = d <;>
    simp [h1, h2, hc, hd]

/-- C10: over the same fixed top-country and top-discipline sets,
aggregating all joined records into cells and then filtering the cells on
both dimensions (the heatmap's order, MedalHeatmap.vue lines 88-121) keeps
exactly the same cells, with the same counts, as filtering the records on
both dimensions first and aggregating afterwards (the Sankey's order,
SankeyDiagram.vue lines 107-119). -/
theorem heatmap_sankey_order_equiv (recs : List JoinedHM)
    (tc td : List String) (c d : String) (n : Nat) :
    (⟨c, d, n⟩ : HeatmapCell) ∈ filterCellsTop tc td (cellsOf recs) ↔
      (⟨c, d, n⟩ : HeatmapCell) ∈ cellsOf (filterRecsTop tc td recs) := by
  rw [filterCellsTop, List.mem_filter, mem_cellsOf, mem_cellsOf]
  constructor
  · rintro ⟨⟨⟨r, hr, hrc, hrd⟩, hn⟩, htop⟩
    simp only [Bool.and_eq_true] at htop
    obtain ⟨htc, htd⟩ := htop
    have hc : c ∈ tc := List.mem_of_elem_eq_true htc
    have hd : d ∈ td := List.mem_of_elem_eq_true htd
    refine ⟨⟨r, ?_, hrc, hrd⟩, ?_⟩
    · rw [filterRecsTop, List.mem_filter]
      refine ⟨hr, ?_⟩
      rw [hrc, hrd, Bool.and_eq_true]
      exact ⟨List.elem_eq_true_of_mem hc, List.elem_eq_true_of_mem hd⟩
    · rw [hn, pairFilter_filterRecsTop hc hd]
  · rintro ⟨⟨r, hr, hrc, hrd⟩, hn⟩
    rw [filterRecsTop, List.mem_filter] at hr
    obtain ⟨hrrecs, hrtop⟩ := hr
    simp only [Bool.and_eq_true] at hrtop
    obtain ⟨htc, htd⟩ := hrtop
    have hc : c ∈ tc := hrc ▸ List.mem_of_elem_eq_true htc
    have hd : d ∈ td := hrd ▸ List.mem_of_elem_eq_true htd
    refine ⟨⟨⟨r, hrrecs, hrc, hrd⟩, ?_⟩, ?_⟩
    · rw [hn, pairFilter_filterRecsTop hc hd]
    · rw [Bool.and_eq_true]
      exact ⟨List.elem_eq_true_of_mem hc, List.elem_eq_true_of_mem hd⟩

end Olympics
